import Mathlib

/-!
Shallow embedding of kdedisplayprofile (Go): the data model decoded from
kscreen-doctor's JSON report, the pure core of `SaveProfileCmd.Run` (profile
extraction) and of `LoadProfileCmd.Run` (directive computation).

Modelling conventions:
* Go `float64` fields (refresh rates, scales) are embedded as exact rationals;
  the decimal values occurring in this development are far from any truncation
  boundary, so the embedding agrees with IEEE arithmetic on them.
* Go `int` fields are embedded as unbounded integers as data; the one place
  the source performs `int` arithmetic on them — the priority comparator's
  subtraction — is embedded with an explicit 64-bit wrap (`wrap64`), matching
  Go's wrapping int64 subtraction.
* `slices.SortFunc` is embedded by the insertion sort that Go's implementation
  runs for slices of at most 12 elements (its `maxInsertion` threshold).
  Order-sensitive theorems are stated only for that regime; for longer slices,
  where Go runs a pattern-defeating quicksort documented as not stable, only
  order-insensitive permutation/membership facts are used, and those hold for
  any sorting algorithm.
* The Go map built by `lo.Associate` is embedded by last-wins association-list
  lookup; its key iteration (whose order Go leaves unspecified) is embedded as
  first-occurrence order, and only order-insensitive properties of the
  resulting disable block are stated.
-/

deriving instance DecidableEq for Except

/-- Pixel size, decoded from kscreen-doctor JSON (`Size` in the source). -/
structure Size where
  height : Int
  width : Int
deriving DecidableEq, Repr

/-- Top-left coordinate in the virtual desktop (`Position` in the source). -/
structure Position where
  x : Int
  y : Int
deriving DecidableEq, Repr

/-- One display timing option of an output (`Mode` in the source). -/
structure Mode where
  id : String
  name : String
  refreshRate : ℚ
  size : Size
deriving DecidableEq, Repr

/-- A live display port as reported by kscreen-doctor (`Output` in the source). -/
structure Output where
  name : String
  currentModeId : String
  enabled : Bool
  size : Size
  pos : Position
  scale : ℚ
  modes : List Mode
  priority : Int
deriving DecidableEq, Repr

/-- The decoded kscreen-doctor report (`KScreenDoctorResult` in the source). -/
structure KScreenDoctorResult where
  outputs : List Output
deriving DecidableEq, Repr

/-- One persisted display intent (`Screen` in the source). -/
structure Screen where
  name : String
  size : Size
  position : Position
  refreshRate : ℚ
  scale : ℚ
deriving DecidableEq, Repr

/-- The persisted profile (`Profile` in the source). -/
structure Profile where
  screens : List Screen
deriving DecidableEq, Repr

/-- Truncation of a rational toward zero: the effect of Go's `int(x)`
conversion on a `float64` value (the source applies it to the difference of
two absolute refresh-rate distances in the mode comparator). -/
def truncQ (q : ℚ) : Int :=
  if q < 0 then -(Int.ofNat (q.num.natAbs / q.den)) else Int.ofNat (q.num.natAbs / q.den)

/-- Reduction of an unbounded integer to the value a Go int64 computation
yields: two's-complement wrap into the interval from -2^63 up to 2^63 - 1. -/
def wrap64 (z : Int) : Int := (z + 2 ^ 63) % 2 ^ 64 - 2 ^ 63

/-- The comparator passed to `slices.SortFunc` in `SaveProfileCmd.Run`:
`a.Priority - b.Priority` on Go's 64-bit `int`, whose subtraction wraps on
overflow (`wrap64_eq_self` removes the wrap when the difference fits). -/
def cmpPriority (a b : Output) : Int := wrap64 (a.priority - b.priority)

theorem wrap64_eq_self (z : Int) (h1 : -(2 ^ 63) ≤ z) (h2 : z < 2 ^ 63) :
    wrap64 z = z := by
  unfold wrap64
  have he : (2 : Int) ^ 63 = 9223372036854775808 := by norm_num
  have he2 : (2 : Int) ^ 64 = 18446744073709551616 := by norm_num
  rw [he] at h1 h2
  rw [he, he2]
  rw [Int.emod_eq_of_lt (by omega) (by omega)]
  omega

/-- Subtraction of rationals computed on the raw representation, so that the
kernel can evaluate it on literals (the library's subtraction is marked
irreducible); `subQ_eq` identifies it with the ordinary subtraction. -/
def subQ (a b : ℚ) : ℚ := mkRat (a.num * b.den - b.num * a.den) (a.den * b.den)

/-- Absolute value of a rational by sign test, as `math.Abs` computes it;
`absQ_eq` identifies it with the ordinary absolute value. -/
def absQ (a : ℚ) : ℚ := if a < 0 then -a else a

theorem subQ_eq (a b : ℚ) : subQ a b = a - b := (Rat.sub_def' a b).symm

theorem absQ_eq (a : ℚ) : absQ a = |a| := by
  by_cases h : a < 0
  · simp [absQ, h, abs_of_neg h]
  · simp [absQ, h, abs_of_nonneg (not_lt.mp h)]

/-- The comparator passed to `slices.SortFunc` in `LoadProfileCmd.Run`:
`int(math.Abs(desired - a.RefreshRate) - math.Abs(desired - b.RefreshRate))`.
The conversion to `int` truncates toward zero, so two modes whose distances
to the desired rate differ by less than 1 Hz compare as equal.  Stated over
the kernel-reducible operations; `cmpMode_eq` gives the textbook form. -/
def cmpMode (desired : ℚ) (a b : Mode) : Int :=
  truncQ (subQ (absQ (subQ desired a.refreshRate)) (absQ (subQ desired b.refreshRate)))

theorem cmpMode_eq (desired : ℚ) (a b : Mode) :
    cmpMode desired a b = truncQ (|desired - a.refreshRate| - |desired - b.refreshRate|) := by
  simp [cmpMode, subQ_eq, absQ_eq]

/-- One step of Go's insertion sort: the element `x` taken from position `i`
is swapped leftward past its neighbour `y` while `cmp x y < 0`.  `revPre` is
the already-sorted prefix in reversed order (head = rightmost element). -/
def bubbleLeft (cmp : α → α → Int) (x : α) : List α → List α
  | [] => [x]
  | y :: rest => if cmp x y < 0 then y :: bubbleLeft cmp x rest else x :: y :: rest

/-- The outer loop of Go's insertion sort: consume the remaining elements,
maintaining the sorted prefix in reversed order. -/
def goSortLoop (cmp : α → α → Int) : List α → List α → List α
  | revPre, [] => revPre.reverse
  | revPre, x :: rest => goSortLoop cmp (bubbleLeft cmp x revPre) rest

/-- Embedding of `slices.SortFunc` as the insertion sort Go runs on slices of
at most 12 elements (every concrete input in this development; for longer
slices only sorting-algorithm-independent permutation facts are used of this
model, since Go then runs an unstable pattern-defeating quicksort). -/
def sortFunc (cmp : α → α → Int) (l : List α) : List α := goSortLoop cmp [] l

/-- The refresh rate `SaveProfileCmd.Run` determines for an output: the rate
of the first mode whose id equals the output's current-mode id (the Go loop
breaks at the first match), or the zero value the `Screen` field was
initialised with when no mode matches. -/
def rateOf (o : Output) : ℚ :=
  match o.modes.find? (fun m => m.id = o.currentModeId) with
  | some m => m.refreshRate
  | none => 0

/-- The screen record `SaveProfileCmd.Run` builds from an enabled output. -/
def toScreen (o : Output) : Screen :=
  { name := o.name, size := o.size, position := o.pos
    refreshRate := rateOf o, scale := o.scale }

/-- Save-side error: `failed to determine refreshrate for output NAME`. -/
inductive SaveError where
  | integrityError (output : String)
deriving DecidableEq, Repr

/-- The output loop of `SaveProfileCmd.Run`: skip disabled outputs, fail on a
zero refresh rate, otherwise append the projected screen. -/
def extractLoop : List Output → Except SaveError (List Screen)
  | [] => .ok []
  | o :: rest =>
    if o.enabled then
      if rateOf o = 0 then .error (.integrityError o.name)
      else (extractLoop rest).map (fun s => toScreen o :: s)
    else extractLoop rest

/-- The pure core of `SaveProfileCmd.Run` (the spec's `extract`): sort the
inventory by priority, then project the enabled outputs to screens. -/
def extract (inv : KScreenDoctorResult) : Except SaveError Profile :=
  (extractLoop (sortFunc cmpPriority inv.outputs)).map Profile.mk

/-- Load-side errors: `profile references missing output NAME` and
`output NAME doesn't contain a matching mode`. -/
inductive LoadError where
  | missingOutput (output : String)
  | noMatchingMode (output : String)
deriving DecidableEq, Repr

/-- One kscreen-doctor command-line argument, as `LoadProfileCmd.Run` formats
it: `output.NAME.disable`, `output.NAME.enable`, `output.NAME.mode.MODENAME`,
`output.NAME.position.X,Y` and `output.NAME.scale.SCALE` (position rendered
with `%d,%d`, scale with `%f`; the embedding keeps the interpolated values). -/
inductive Directive where
  | disable (output : String)
  | enable (output : String)
  | mode (output : String) (modeName : String)
  | position (output : String) (x y : Int)
  | scale (output : String) (scale : ℚ)
deriving DecidableEq, Repr

/-- Lookup in the Go map built by `lo.Associate` over the live outputs: keyed
by output name, later entries overwriting earlier ones. -/
def lookupLast (outputs : List Output) (name : String) : Option Output :=
  outputs.reverse.find? (fun o => o.name = name)

/-- The `targetOutputProperties` record of `LoadProfileCmd.Run` (mode is the
chosen mode's name; position and scale keep the interpolated values). -/
structure TargetOutputProperties where
  name : String
  mode : String
  position : Position
  scale : ℚ
deriving DecidableEq, Repr

/-- One iteration of the screen loop of `LoadProfileCmd.Run`: resolve the live
output by name, filter its modes to those matching the desired size, sort the
qualifying modes by the truncating refresh-rate comparator and take the first. -/
def resolveScreen (outputs : List Output) (s : Screen) : Except LoadError TargetOutputProperties :=
  match lookupLast outputs s.name with
  | none => .error (.missingOutput s.name)
  | some o =>
    match o.modes.filter (fun m => m.size = s.size) with
    | [] => .error (.noMatchingMode s.name)
    | m0 :: ms =>
      .ok { name := s.name
            mode := ((sortFunc (cmpMode s.refreshRate) (m0 :: ms)).headD m0).name
            position := s.position, scale := s.scale }

/-- The screen loop of `LoadProfileCmd.Run`: resolve each profile screen in
order, aborting at the first failure. -/
def resolveAll (outputs : List Output) : List Screen → Except LoadError (List TargetOutputProperties)
  | [] => .ok []
  | s :: rest =>
    match resolveScreen outputs s with
    | .error e => .error e
    | .ok t => (resolveAll outputs rest).map (fun ts => t :: ts)

/-- Key iteration over the `lo.Associate` map: each distinct name once.  Go
leaves the iteration order of a map unspecified; the embedding fixes
first-occurrence order, and only order-insensitive properties of the disable
block are stated about it. -/
def keysAux (seen : List String) : List String → List String
  | [] => []
  | n :: rest => if seen.contains n then keysAux seen rest else n :: keysAux (n :: seen) rest

/-- The distinct live output names (the keys of `outputByName`). -/
def mapKeys (outputs : List Output) : List String :=
  keysAux [] (outputs.map (fun o => o.name))

/-- The four-argument block `LoadProfileCmd.Run` appends per resolved screen:
enable, mode, position, scale. -/
def enableBlock (t : TargetOutputProperties) : List Directive :=
  [.enable t.name, .mode t.name t.mode, .position t.name t.position.x t.position.y,
   .scale t.name t.scale]

/-- The pure core of `LoadProfileCmd.Run` (the spec's `apply`): resolve every
profile screen against the live inventory, then emit one disable per live
output name not targeted by the profile followed by the enable blocks in
profile order.  The resulting list is the kscreen-doctor argument vector. -/
def applyProfile (p : Profile) (inv : KScreenDoctorResult) : Except LoadError (List Directive) :=
  match resolveAll inv.outputs p.screens with
  | .error e => .error e
  | .ok targets =>
    let targetNames := targets.map (fun t => t.name)
    let disabledOutputs := (mapKeys inv.outputs).filter (fun n => !(targetNames.contains n))
    .ok (disabledOutputs.map Directive.disable ++ targets.flatMap enableBlock)

theorem bubbleLeft_perm (cmp : α → α → Int) (x : α) (l : List α) :
    (bubbleLeft cmp x l).Perm (x :: l) := by
  induction l with
  | nil => exact List.Perm.refl _
  | cons y rest ih =>
    by_cases h : cmp x y < 0
    · simp only [bubbleLeft, if_pos h]
      exact (ih.cons y).trans (List.Perm.swap x y rest)
    · simp only [bubbleLeft, if_neg h]
      exact List.Perm.refl _

theorem goSortLoop_perm (cmp : α → α → Int) (rev l : List α) :
    (goSortLoop cmp rev l).Perm (rev.reverse ++ l) := by
  induction l generalizing rev with
  | nil => simp [goSortLoop]
  | cons x rest ih =>
    have h1 : ((bubbleLeft cmp x rev).reverse ++ rest).Perm (rev.reverse ++ x :: rest) := by
      have h2 : (bubbleLeft cmp x rev).reverse.Perm (x :: rev.reverse) :=
        ((bubbleLeft cmp x rev).reverse_perm.trans (bubbleLeft_perm cmp x rev)).trans
          (List.Perm.cons x rev.reverse_perm.symm)
      exact (h2.append_right rest).trans List.perm_middle.symm
    exact (ih (bubbleLeft cmp x rev)).trans h1

theorem sortFunc_perm (cmp : α → α → Int) (l : List α) : (sortFunc cmp l).Perm l :=
  goSortLoop_perm cmp [] l

theorem sortFunc_mem (cmp : α → α → Int) (l : List α) (a : α) :
    a ∈ sortFunc cmp l ↔ a ∈ l :=
  (sortFunc_perm cmp l).mem_iff

theorem sortFunc_length (cmp : α → α → Int) (l : List α) :
    (sortFunc cmp l).length = l.length :=
  (sortFunc_perm cmp l).length_eq

theorem bubbleLeft_filterKey (k : α → Int) (v : Int) (x : α) (l : List α) :
    (bubbleLeft (fun a b => k a - k b) x l).filter (fun a => k a = v)
      = if k x = v then x :: l.filter (fun a => k a = v)
        else l.filter (fun a => k a = v) := by
  induction l with
  | nil => by_cases h : k x = v <;> simp [bubbleLeft, h]
  | cons y rest ih =>
    by_cases h : k x - k y < 0
    · have hxy : k x < k y := by omega
      simp only [bubbleLeft, if_pos h, List.filter_cons, ih]
      by_cases hy : k y = v
      · have hx : ¬ k x = v := by omega
        simp [hx, hy]
      · by_cases hx : k x = v <;> simp [hx, hy]
    · simp only [bubbleLeft, if_neg h, List.filter_cons]
      by_cases hx : k x = v <;> simp [hx]

theorem goSortLoop_filterKey (k : α → Int) (v : Int) (rev l : List α) :
    (goSortLoop (fun a b => k a - k b) rev l).filter (fun a => k a = v)
      = (rev.filter (fun a => k a = v)).reverse ++ l.filter (fun a => k a = v) := by
  induction l generalizing rev with
  | nil => simp [goSortLoop, List.filter_reverse]
  | cons x rest ih =>
    simp only [goSortLoop, ih, bubbleLeft_filterKey, List.filter_cons]
    by_cases hx : k x = v <;> simp [hx]

/-- Stability of the embedded `slices.SortFunc` for a key-difference
comparator: the elements with any fixed key value keep their original
relative order. -/
theorem sortFunc_filterKey (k : α → Int) (v : Int) (l : List α) :
    (sortFunc (fun a b => k a - k b) l).filter (fun a => k a = v)
      = l.filter (fun a => k a = v) := by
  simpa using goSortLoop_filterKey k v [] l

theorem bubbleLeft_pairwise (k : α → Int) (x : α) (l : List α)
    (h : l.Pairwise (fun a b => k b ≤ k a)) :
    (bubbleLeft (fun a b => k a - k b) x l).Pairwise (fun a b => k b ≤ k a) := by
  induction l with
  | nil => simp [bubbleLeft]
  | cons y rest ih =>
    rcases List.pairwise_cons.mp h with ⟨hy, hrest⟩
    by_cases hc : k x - k y < 0
    · simp only [bubbleLeft, if_pos hc]
      refine List.pairwise_cons.mpr ⟨?_, ih hrest⟩
      intro a ha
      have hmem := (bubbleLeft_perm (fun a b => k a - k b) x rest).mem_iff.mp ha
      rcases List.mem_cons.mp hmem with ha2 | ha2
      · subst ha2; omega
      · exact hy a ha2
    · simp only [bubbleLeft, if_neg hc]
      refine List.pairwise_cons.mpr ⟨?_, h⟩
      intro a ha
      rcases List.mem_cons.mp ha with ha' | ha'
      · subst ha'; omega
      · have := hy a ha'; omega

theorem goSortLoop_pairwise (k : α → Int) (rev l : List α)
    (h : rev.Pairwise (fun a b => k b ≤ k a)) :
    (goSortLoop (fun a b => k a - k b) rev l).Pairwise (fun a b => k a ≤ k b) := by
  induction l generalizing rev with
  | nil =>
    simpa [goSortLoop, List.pairwise_reverse] using h
  | cons x rest ih =>
    exact ih (bubbleLeft (fun a b => k a - k b) x rev) (bubbleLeft_pairwise k x rev h)

/-- Sortedness of the embedded `slices.SortFunc` for a key-difference
comparator: the result is ascending in the key. -/
theorem sortFunc_pairwiseKey (k : α → Int) (l : List α) :
    (sortFunc (fun a b => k a - k b) l).Pairwise (fun a b => k a ≤ k b) :=
  goSortLoop_pairwise k [] l (by simp)

theorem bubbleLeft_congr (cmp cmp2 : α → α → Int) (x : α) (l : List α)
    (h : ∀ a ∈ x :: l, ∀ b ∈ x :: l, cmp a b = cmp2 a b) :
    bubbleLeft cmp x l = bubbleLeft cmp2 x l := by
  induction l with
  | nil => rfl
  | cons y rest ih =>
    have hxy : cmp x y = cmp2 x y := h x (by simp) y (by simp)
    have hsub : ∀ a ∈ x :: rest, ∀ b ∈ x :: rest, cmp a b = cmp2 a b := by
      intro a ha b hb
      refine h a ?_ b ?_
      · rcases List.mem_cons.mp ha with h2 | h2
        · simp [h2]
        · simp [h2]
      · rcases List.mem_cons.mp hb with h2 | h2
        · simp [h2]
        · simp [h2]
    by_cases hc : cmp x y < 0
    · rw [bubbleLeft, if_pos hc, bubbleLeft, if_pos (hxy ▸ hc), ih hsub]
    · rw [bubbleLeft, if_neg hc, bubbleLeft, if_neg (hxy ▸ hc)]

theorem goSortLoop_congr (cmp cmp2 : α → α → Int) (rev l : List α)
    (h : ∀ a ∈ rev ++ l, ∀ b ∈ rev ++ l, cmp a b = cmp2 a b) :
    goSortLoop cmp rev l = goSortLoop cmp2 rev l := by
  induction l generalizing rev with
  | nil => rfl
  | cons x rest ih =>
    have hxrev : ∀ a ∈ x :: rev, ∀ b ∈ x :: rev, cmp a b = cmp2 a b := by
      intro a ha b hb
      refine h a ?_ b ?_
      · rcases List.mem_cons.mp ha with h2 | h2
        · simp [h2]
        · exact List.mem_append.mpr (Or.inl h2)
      · rcases List.mem_cons.mp hb with h2 | h2
        · simp [h2]
        · exact List.mem_append.mpr (Or.inl h2)
    have hnext : ∀ a ∈ bubbleLeft cmp2 x rev ++ rest,
        ∀ b ∈ bubbleLeft cmp2 x rev ++ rest, cmp a b = cmp2 a b := by
      have hmem : ∀ a, a ∈ bubbleLeft cmp2 x rev ++ rest → a ∈ rev ++ x :: rest := by
        intro a ha
        rcases List.mem_append.mp ha with h2 | h2
        · rcases List.mem_cons.mp ((bubbleLeft_perm cmp2 x rev).mem_iff.mp h2) with h3 | h3
          · exact List.mem_append.mpr (Or.inr (by simp [h3]))
          · exact List.mem_append.mpr (Or.inl h3)
        · exact List.mem_append.mpr (Or.inr (List.mem_cons_of_mem x h2))
      intro a ha b hb
      exact h a (hmem a ha) b (hmem b hb)
    rw [goSortLoop, goSortLoop, bubbleLeft_congr cmp cmp2 x rev hxrev]
    exact ih (bubbleLeft cmp2 x rev) hnext

/-- Two comparators agreeing on all pairs drawn from the list sort it
identically. -/
theorem sortFunc_congr (cmp cmp2 : α → α → Int) (l : List α)
    (h : ∀ a ∈ l, ∀ b ∈ l, cmp a b = cmp2 a b) :
    sortFunc cmp l = sortFunc cmp2 l :=
  goSortLoop_congr cmp cmp2 [] l (by simpa using h)

theorem extractLoop_ok_of (l : List Output) (h : ∀ o ∈ l, o.enabled → rateOf o ≠ 0) :
    extractLoop l = .ok ((l.filter (fun o => o.enabled)).map toScreen) := by
  induction l with
  | nil => simp [extractLoop]
  | cons o rest ih =>
    by_cases he : o.enabled
    · have hr : ¬ rateOf o = 0 := h o (List.mem_cons_self o rest) he
      simp [extractLoop, he, hr, ih (fun x hx hex => h x (List.mem_cons_of_mem o hx) hex),
        Except.map]
    · simp [extractLoop, he, ih (fun x hx hex => h x (List.mem_cons_of_mem o hx) hex)]

theorem extractLoop_eq_ok (l : List Output) (s : List Screen) (h : extractLoop l = .ok s) :
    s = (l.filter (fun o => o.enabled)).map toScreen ∧
      ∀ o ∈ l, o.enabled → rateOf o ≠ 0 := by
  induction l generalizing s with
  | nil =>
    simp only [extractLoop, Except.ok.injEq] at h
    simp [← h]
  | cons o rest ih =>
    by_cases he : o.enabled
    · by_cases hr : rateOf o = 0
      · simp [extractLoop, he, hr] at h
      · simp only [extractLoop, he, if_true, hr, if_false] at h
        cases hrest : extractLoop rest with
        | error e => rw [hrest] at h; simp [Except.map] at h
        | ok s0 =>
          rw [hrest] at h
          simp only [Except.map, Except.ok.injEq] at h
          rcases ih s0 hrest with ⟨hs0, hall⟩
          subst hs0
          refine ⟨by simp [← h, he], ?_⟩
          intro x hx hex
          rcases List.mem_cons.mp hx with hx2 | hx2
          · subst hx2; exact hr
          · exact hall x hx2 hex
    · simp only [extractLoop, he, if_false] at h
      rcases ih s h with ⟨hs, hall⟩
      refine ⟨by simp [hs, he], ?_⟩
      intro x hx hex
      rcases List.mem_cons.mp hx with hx2 | hx2
      · subst hx2; simp [he] at hex
      · exact hall x hx2 hex

theorem extractLoop_error_of (l : List Output) (o : Output) (ho : o ∈ l)
    (he : o.enabled) (hr : rateOf o = 0) :
    ∃ x ∈ l, x.enabled ∧ rateOf x = 0 ∧ extractLoop l = .error (.integrityError x.name) := by
  induction l with
  | nil => cases ho
  | cons y rest ih =>
    by_cases hye : y.enabled
    · by_cases hyr : rateOf y = 0
      · exact ⟨y, List.mem_cons_self y rest, hye, hyr, by simp [extractLoop, hye, hyr]⟩
      · have ho2 : o ∈ rest := by
          rcases List.mem_cons.mp ho with h2 | h2
          · subst h2; exact absurd hr hyr
          · exact h2
        rcases ih ho2 with ⟨x, hx, hxe, hxr, hloop⟩
        exact ⟨x, List.mem_cons_of_mem y hx, hxe, hxr, by
          simp [extractLoop, hye, hyr, hloop, Except.map]⟩
    · have ho2 : o ∈ rest := by
        rcases List.mem_cons.mp ho with h2 | h2
        · subst h2; exact absurd he hye
        · exact h2
      rcases ih ho2 with ⟨x, hx, hxe, hxr, hloop⟩
      exact ⟨x, List.mem_cons_of_mem y hx, hxe, hxr, by simp [extractLoop, hye, hloop]⟩

theorem resolveScreen_name (outputs : List Output) (s : Screen) (t : TargetOutputProperties)
    (h : resolveScreen outputs s = .ok t) : t.name = s.name := by
  unfold resolveScreen at h
  split at h
  · cases h
  · split at h
    · cases h
    · cases h
      rfl

theorem resolveAll_names (outputs : List Output) (screens : List Screen)
    (ts : List TargetOutputProperties) (h : resolveAll outputs screens = .ok ts) :
    ts.map (fun t => t.name) = screens.map (fun s => s.name) := by
  induction screens generalizing ts with
  | nil => simp only [resolveAll, Except.ok.injEq] at h; simp [← h]
  | cons s rest ih =>
    unfold resolveAll at h
    cases hs : resolveScreen outputs s with
    | error e => rw [hs] at h; cases h
    | ok t =>
      rw [hs] at h
      cases hrest : resolveAll outputs rest with
      | error e => rw [hrest] at h; simp [Except.map] at h
      | ok ts0 =>
        rw [hrest] at h
        simp only [Except.map, Except.ok.injEq] at h
        subst h
        simp [ih ts0 hrest, resolveScreen_name outputs s t hs]

theorem resolveAll_error_of (outputs : List Output) (screens : List Screen) (s : Screen)
    (hs : s ∈ screens) (hfail : ∀ t, ¬ resolveScreen outputs s = .ok t) :
    ∃ e, resolveAll outputs screens = .error e := by
  induction screens with
  | nil => cases hs
  | cons s0 rest ih =>
    cases h0 : resolveScreen outputs s0 with
    | error e => exact ⟨e, by simp [resolveAll, h0]⟩
    | ok t =>
      have hs2 : s ∈ rest := by
        rcases List.mem_cons.mp hs with h2 | h2
        · subst h2; exact absurd h0 (hfail t)
        · exact h2
      rcases ih hs2 with ⟨e, he⟩
      exact ⟨e, by simp [resolveAll, h0, he, Except.map]⟩

theorem resolveAll_first_error (outputs : List Output) (pre post : List Screen)
    (s : Screen) (e : LoadError)
    (hpre : ∀ t ∈ pre, ∃ r, resolveScreen outputs t = .ok r)
    (hs : resolveScreen outputs s = .error e) :
    resolveAll outputs (pre ++ s :: post) = .error e := by
  induction pre with
  | nil => simp [resolveAll, hs]
  | cons t0 rest ih =>
    rcases hpre t0 (List.mem_cons_self t0 rest) with ⟨r, hr⟩
    have := ih (fun t ht => hpre t (List.mem_cons_of_mem t0 ht))
    simp [resolveAll, hr, this, Except.map]

theorem applyProfile_ok_iff (p : Profile) (inv : KScreenDoctorResult) (args : List Directive) :
    applyProfile p inv = .ok args ↔
      ∃ ts, resolveAll inv.outputs p.screens = .ok ts ∧
        args = ((mapKeys inv.outputs).filter
            (fun n => !((ts.map (fun t => t.name)).contains n))).map Directive.disable
          ++ ts.flatMap enableBlock := by
  unfold applyProfile
  cases h : resolveAll inv.outputs p.screens with
  | error e => simp
  | ok ts => simp [eq_comm]

theorem applyProfile_error (p : Profile) (inv : KScreenDoctorResult) (e : LoadError)
    (h : resolveAll inv.outputs p.screens = .error e) : applyProfile p inv = .error e := by
  unfold applyProfile
  rw [h]

theorem contains_iff_mem (l : List String) (n : String) : l.contains n ↔ n ∈ l := by
  simp [List.contains, List.elem_iff]

theorem mem_filter_not_contains (keys l : List String) (n : String) :
    n ∈ keys.filter (fun m => !(l.contains m)) ↔ n ∈ keys ∧ n ∉ l := by
  rw [List.mem_filter]
  constructor
  · rintro ⟨h1, h2⟩
    refine ⟨h1, fun hm => ?_⟩
    rw [(contains_iff_mem l n).mpr hm] at h2
    simp at h2
  · rintro ⟨h1, h2⟩
    refine ⟨h1, ?_⟩
    cases hcb : l.contains n
    · rfl
    · exact absurd ((contains_iff_mem l n).mp hcb) h2

theorem mem_keysAux (seen l : List String) (n : String) :
    n ∈ keysAux seen l ↔ n ∈ l ∧ n ∉ seen := by
  induction l generalizing seen with
  | nil => simp [keysAux]
  | cons m rest ih =>
    by_cases hm : seen.contains m
    · rw [keysAux, if_pos hm, ih]
      constructor
      · rintro ⟨h1, h2⟩
        exact ⟨List.mem_cons_of_mem m h1, h2⟩
      · rintro ⟨h1, h2⟩
        rcases List.mem_cons.mp h1 with h3 | h3
        · subst h3; exact absurd ((contains_iff_mem _ _).mp hm) h2
        · exact ⟨h3, h2⟩
    · rw [keysAux, if_neg hm]
      constructor
      · intro h
        rcases List.mem_cons.mp h with h3 | h3
        · subst h3
          exact ⟨List.mem_cons_self _ _, fun hc => hm ((contains_iff_mem _ _).mpr hc)⟩
        · rcases (ih (m :: seen)).mp h3 with ⟨h4, h5⟩
          exact ⟨List.mem_cons_of_mem m h4,
            fun hc => h5 (List.mem_cons_of_mem m hc)⟩
      · rintro ⟨h1, h2⟩
        rcases List.mem_cons.mp h1 with h3 | h3
        · subst h3; exact List.mem_cons_self n _
        · by_cases hnm : n = m
          · subst hnm; exact List.mem_cons_self n _
          · exact List.mem_cons_of_mem m
              ((ih (m :: seen)).mpr ⟨h3, by
                intro hc
                rcases List.mem_cons.mp hc with h4 | h4
                · exact hnm h4
                · exact h2 h4⟩)

theorem mem_mapKeys (outputs : List Output) (n : String) :
    n ∈ mapKeys outputs ↔ n ∈ outputs.map (fun o => o.name) := by
  simp [mapKeys, mem_keysAux]

theorem keysAux_of_nodup (seen l : List String) (hl : l.Nodup)
    (hs : ∀ n ∈ l, n ∉ seen) : keysAux seen l = l := by
  induction l generalizing seen with
  | nil => rfl
  | cons m rest ih =>
    have hm : ¬ seen.contains m := fun hc =>
      hs m (List.mem_cons_self m rest) ((contains_iff_mem _ _).mp hc)
    rw [keysAux, if_neg hm]
    rcases List.nodup_cons.mp hl with ⟨hm2, hrest⟩
    rw [ih (m :: seen) hrest]
    intro n hn
    intro hc
    rcases List.mem_cons.mp hc with h4 | h4
    · subst h4; exact hm2 hn
    · exact hs n (List.mem_cons_of_mem m hn) h4

theorem disable_not_mem_enableBlocks (ts : List TargetOutputProperties) (n : String) :
    Directive.disable n ∉ ts.flatMap enableBlock := by
  simp [List.mem_flatMap, enableBlock]

theorem enable_mem_enableBlocks (ts : List TargetOutputProperties) (n : String) :
    Directive.enable n ∈ ts.flatMap enableBlock ↔ n ∈ ts.map (fun t => t.name) := by
  simp [List.mem_flatMap, enableBlock, eq_comm]

theorem lookupLast_eq_none (outputs : List Output) (n : String)
    (h : ∀ o ∈ outputs, o.name ≠ n) : lookupLast outputs n = none := by
  apply List.find?_eq_none.mpr
  intro o ho
  simp [h o (List.mem_reverse.mp ho)]

/-! Concrete fixtures: a 1920×1080 output `A` offering modes at 59.9 Hz,
60 Hz and 75 Hz, its current mode being the 60 Hz one. -/

def szFHD : Size := ⟨1080, 1920⟩

def mode599 : Mode := ⟨"m1", "1920x1080@59.9", mkRat 599 10, szFHD⟩

def mode600 : Mode := ⟨"m2", "1920x1080@60", mkRat 60 1, szFHD⟩

def mode750 : Mode := ⟨"m3", "1920x1080@75", mkRat 75 1, szFHD⟩

def outA : Output := ⟨"A", "m2", true, szFHD, ⟨0, 0⟩, 1, [mode599, mode600, mode750], 0⟩

def invC1 : KScreenDoctorResult := ⟨[outA]⟩

def screenA60 : Screen := ⟨"A", szFHD, ⟨0, 0⟩, mkRat 60 1, 1⟩

def profC1 : Profile := ⟨[screenA60]⟩

/-- C1: among the modes of size 1920×1080 the applier is claimed to select the
one minimizing the absolute refresh-rate distance — with modes at 59.9, 60.0
and 75.0 Hz and a desired rate of 60.0 that is the 60.0 Hz mode.  The code
instead emits the 59.9 Hz mode: its comparator converts the difference of the
two distances to `int`, which truncates the sub-1 Hz difference 0.1 to 0, so
the 59.9 Hz and 60.0 Hz modes compare as equal and the enumeration order
(59.9 Hz first) wins, even though the 60.0 Hz mode has strictly smaller
distance.  This contradicts the selection rule the code's own comment
(`Pick the mode with the next best refreshrate`) and the spec describe. -/
theorem c1_applier_selects_farther_mode :
    absQ (subQ screenA60.refreshRate mode600.refreshRate)
        < absQ (subQ screenA60.refreshRate mode599.refreshRate)
      ∧ applyProfile profC1 invC1 = .ok [.enable "A", .mode "A" "1920x1080@59.9",
          .position "A" 0 0, .scale "A" 1]
      ∧ mode599.name = "1920x1080@59.9" ∧ mode600.name = "1920x1080@60" := by
  refine ⟨by decide, by decide, rfl, rfl⟩

/-! Overflow fixture for C2: enabled outputs `H` (priority 2^62) and `L`
(priority -(2^62) - 1).  Their priority difference does not fit in an int64,
so Go's comparator `a.Priority - b.Priority` wraps and reports the lower
priority as greater. -/

def outHi : Output := ⟨"H", "m2", true, szFHD, ⟨0, 0⟩, 1, [mode600], 2 ^ 62⟩

def outLo : Output := ⟨"L", "m2", true, szFHD, ⟨0, 0⟩, 1, [mode600], -(2 ^ 62) - 1⟩

def invOvf : KScreenDoctorResult := ⟨[outHi, outLo]⟩

def profOvf : Profile := ⟨[⟨"H", szFHD, ⟨0, 0⟩, mkRat 60 1, 1⟩,
  ⟨"L", szFHD, ⟨0, 0⟩, mkRat 60 1, 1⟩]⟩

/-- C2 counterexample: extract does not order Screens by ascending priority
on every inventory.  On `invOvf` the comparator computes
`(-(2^62) - 1) - 2^62 = -(2^63) - 1`, which wraps in int64 to `2^63 - 1 > 0`,
so the two-element insertion sort (Go's exact code path at this length) keeps
`H` before `L` and extract returns the strictly higher-priority output first. -/
theorem c2_overflow_breaks_ascending :
    extract invOvf = .ok profOvf
      ∧ profOvf.screens.map (fun s => s.name) = [outHi.name, outLo.name]
      ∧ outLo.priority < outHi.priority
      ∧ outHi.enabled = true ∧ outLo.enabled = true := by
  refine ⟨by decide, by decide, by decide, by decide, by decide⟩

/-- C2 (amended): for an inventory of at most 12 outputs — the regime in
which Go's `slices.SortFunc` runs exactly the stable insertion sort embedded
here — whose pairwise priority differences fit in an int64 (so the wrapping
comparator equals plain subtraction), extract orders the resulting Screens by
ascending Output priority, outputs of any fixed priority keep their original
relative order, and the Screens of a successful extraction are exactly the
enabled outputs in that order (extract is a pure function of the inventory,
hence deterministic). -/
theorem c2_small_inventory_sorted_stable (inv : KScreenDoctorResult)
    (_hlen : inv.outputs.length ≤ 12)
    (hsafe : ∀ a ∈ inv.outputs, ∀ b ∈ inv.outputs,
      -(2 ^ 63) ≤ a.priority - b.priority ∧ a.priority - b.priority < 2 ^ 63) :
    (sortFunc cmpPriority inv.outputs).Pairwise (fun a b => a.priority ≤ b.priority)
      ∧ (∀ v : Int, (sortFunc cmpPriority inv.outputs).filter (fun o => o.priority = v)
          = inv.outputs.filter (fun o => o.priority = v))
      ∧ (∀ p, extract inv = .ok p →
          p.screens.map (fun s => s.name)
            = ((sortFunc cmpPriority inv.outputs).filter (fun o => o.enabled)).map
                (fun o => o.name)) := by
  have hcong : sortFunc cmpPriority inv.outputs
      = sortFunc (fun a b => a.priority - b.priority) inv.outputs := by
    refine sortFunc_congr _ _ _ (fun a ha b hb => ?_)
    rcases hsafe a ha b hb with ⟨g1, g2⟩
    unfold cmpPriority
    exact wrap64_eq_self _ g1 g2
  refine ⟨?_, ?_, ?_⟩
  · rw [hcong]
    exact sortFunc_pairwiseKey Output.priority inv.outputs
  · intro v
    rw [hcong]
    exact sortFunc_filterKey Output.priority v inv.outputs
  · intro p hp
    rw [hcong]
    unfold extract at hp
    rw [hcong] at hp
    cases hl : extractLoop (sortFunc (fun a b => a.priority - b.priority) inv.outputs) with
    | error e => rw [hl] at hp; simp [Except.map] at hp
    | ok s =>
      rw [hl] at hp
      simp only [Except.map, Except.ok.injEq] at hp
      rcases extractLoop_eq_ok _ _ hl with ⟨hs, -⟩
      rw [← hp]
      simp [hs, List.map_map, Function.comp, toScreen]

/-! Stability fixture: outputs `B` and `C` share priority 5, output `D` has
priority 1; all are enabled at the 60 Hz mode. -/

def outB5 : Output := ⟨"B", "m2", true, szFHD, ⟨0, 0⟩, 1, [mode600], 5⟩

def outC5 : Output := ⟨"C", "m2", true, szFHD, ⟨0, 0⟩, 1, [mode600], 5⟩

def outD1 : Output := ⟨"D", "m2", true, szFHD, ⟨0, 0⟩, 1, [mode600], 1⟩

def invC2 : KScreenDoctorResult := ⟨[outB5, outC5, outD1]⟩

def profC2 : Profile := ⟨[⟨"D", szFHD, ⟨0, 0⟩, mkRat 60 1, 1⟩,
  ⟨"B", szFHD, ⟨0, 0⟩, mkRat 60 1, 1⟩, ⟨"C", szFHD, ⟨0, 0⟩, mkRat 60 1, 1⟩]⟩

/-- Witness for C2 (amended): on the three-output `invC2` (within the
insertion-sort regime, priorities far from overflow) the extraction succeeds
and lists `D` (priority 1) first, then `B` before `C` (equal priority 5,
inventory order preserved). -/
theorem c2_small_inventory_sorted_stable_witness :
    invC2.outputs.length ≤ 12
      ∧ extract invC2 = .ok profC2
      ∧ profC2.screens.map (fun s => s.name)
        = ((sortFunc cmpPriority invC2.outputs).filter (fun o => o.enabled)).map
            (fun o => o.name) :=
  ⟨by decide, by decide,
   (c2_small_inventory_sorted_stable invC2 (by decide) (by decide)).2.2 profC2 (by decide)⟩

/-! Round-trip fixture: the same output with only the 59.9 Hz and 60 Hz
modes, the current mode being the 60 Hz one. -/

def outRT : Output := ⟨"A", "m2", true, szFHD, ⟨0, 0⟩, 1, [mode599, mode600], 0⟩

def invRT : KScreenDoctorResult := ⟨[outRT]⟩

/-- C8: extracting from `invRT` and re-applying to the same inventory is
claimed to be a no-op in effect.  The code extracts the current 60 Hz mode,
but re-applying emits a mode directive for the 59.9 Hz mode — the truncating
comparator ties the two modes and enumeration order wins — so the selected
mode differs from the one already current and the directive list changes the
output's mode. -/
theorem c8_roundtrip_changes_mode :
    extract invRT = .ok ⟨[screenA60]⟩
      ∧ applyProfile ⟨[screenA60]⟩ invRT = .ok [.enable "A", .mode "A" "1920x1080@59.9",
          .position "A" 0 0, .scale "A" 1]
      ∧ (outRT.modes.find? (fun m => m.id = outRT.currentModeId)).map (fun m => m.name)
          = some "1920x1080@60"
      ∧ Directive.mode "A" "1920x1080@60"
          ∉ [Directive.enable "A", Directive.mode "A" "1920x1080@59.9",
             Directive.position "A" 0 0, Directive.scale "A" 1] := by
  refine ⟨by decide, by decide, by decide, by decide⟩

/-- C3: when apply succeeds, the names given a disable directive are exactly
the live inventory names not referenced by any profile screen, and the names
given an enable directive are exactly the profile's screen names. -/
theorem c3_disable_enable_sets (p : Profile) (inv : KScreenDoctorResult)
    (args : List Directive) (h : applyProfile p inv = .ok args) :
    (∀ n, Directive.disable n ∈ args ↔
        (n ∈ inv.outputs.map (fun o => o.name) ∧ n ∉ p.screens.map (fun s => s.name)))
      ∧ (∀ n, Directive.enable n ∈ args ↔ n ∈ p.screens.map (fun s => s.name)) := by
  rcases (applyProfile_ok_iff p inv args).mp h with ⟨ts, hts, hargs⟩
  have hnames := resolveAll_names _ _ _ hts
  subst hargs
  constructor
  · intro n
    rw [List.mem_append]
    constructor
    · rintro (hd | hd)
      · rcases List.mem_map.mp hd with ⟨n2, hn2, heq⟩
        cases heq
        rcases (mem_filter_not_contains _ _ _).mp hn2 with ⟨hk, hnc⟩
        refine ⟨(mem_mapKeys _ _).mp hk, ?_⟩
        rw [← hnames]
        exact hnc
      · exact absurd hd (disable_not_mem_enableBlocks ts n)
    · rintro ⟨hinv, hprof⟩
      left
      refine List.mem_map.mpr ⟨n, (mem_filter_not_contains _ _ _).mpr
        ⟨(mem_mapKeys _ _).mpr hinv, ?_⟩, rfl⟩
      rw [hnames]
      exact hprof
  · intro n
    rw [List.mem_append]
    constructor
    · rintro (hd | hd)
      · rcases List.mem_map.mp hd with ⟨n2, hn2, heq⟩
        cases heq
      · rw [← hnames]
        exact (enable_mem_enableBlocks ts n).mp hd
    · intro hmem
      right
      rw [← hnames] at hmem
      exact (enable_mem_enableBlocks ts n).mpr hmem

/-! Fixture for C3: inventory outputs `A`, `B`, `C`; profile referencing only
`A`. -/

def outAonly : Output := ⟨"A", "m2", true, szFHD, ⟨0, 0⟩, 1, [mode600], 0⟩

def outBonly : Output := ⟨"B", "m2", true, szFHD, ⟨0, 0⟩, 1, [mode600], 0⟩

def outConly : Output := ⟨"C", "m2", true, szFHD, ⟨0, 0⟩, 1, [mode600], 0⟩

def invABC : KScreenDoctorResult := ⟨[outAonly, outBonly, outConly]⟩

def profOnlyA : Profile := ⟨[screenA60]⟩

/-- Witness for C3: against inventory `{A, B, C}` and a profile referencing
only `A`, outputs `B` and `C` are disabled, `A` is enabled, and `A` is not
disabled. -/
theorem c3_disable_enable_sets_witness :
    applyProfile profOnlyA invABC
        = .ok [.disable "B", .disable "C", .enable "A", .mode "A" "1920x1080@60",
            .position "A" 0 0, .scale "A" 1]
      ∧ (Directive.disable "B" ∈ [Directive.disable "B", Directive.disable "C",
            Directive.enable "A", Directive.mode "A" "1920x1080@60",
            Directive.position "A" 0 0, Directive.scale "A" 1] ↔
          ("B" ∈ invABC.outputs.map (fun o => o.name)
            ∧ "B" ∉ profOnlyA.screens.map (fun s => s.name)))
      ∧ (Directive.enable "A" ∈ [Directive.disable "B", Directive.disable "C",
            Directive.enable "A", Directive.mode "A" "1920x1080@60",
            Directive.position "A" 0 0, Directive.scale "A" 1] ↔
          "A" ∈ profOnlyA.screens.map (fun s => s.name)) :=
  ⟨by decide,
   (c3_disable_enable_sets profOnlyA invABC
     [.disable "B", .disable "C", .enable "A", .mode "A" "1920x1080@60",
      .position "A" 0 0, .scale "A" 1] (by decide)).1 "B",
   (c3_disable_enable_sets profOnlyA invABC
     [.disable "B", .disable "C", .enable "A", .mode "A" "1920x1080@60",
      .position "A" 0 0, .scale "A" 1] (by decide)).2 "A"⟩

/-- C4: a profile screen whose output name matches no live output makes apply
fail, and when the screens before it all resolve, the failure is the
missing-output error naming that output; the error result carries no
directives, so none are emitted or applied. -/
theorem c4_missing_output_aborts (inv : KScreenDoctorResult) (p : Profile) (s : Screen)
    (hs : s ∈ p.screens) (habsent : ∀ o ∈ inv.outputs, o.name ≠ s.name) :
    (∃ e, applyProfile p inv = .error e)
      ∧ (∀ pre post, p.screens = pre ++ s :: post →
          (∀ t ∈ pre, ∃ r, resolveScreen inv.outputs t = .ok r) →
          applyProfile p inv = .error (.missingOutput s.name)) := by
  have hlook : lookupLast inv.outputs s.name = none := lookupLast_eq_none _ _ habsent
  have hres : resolveScreen inv.outputs s = .error (.missingOutput s.name) := by
    unfold resolveScreen
    rw [hlook]
  constructor
  · rcases resolveAll_error_of inv.outputs p.screens s hs
        (fun t hc => by rw [hres] at hc; cases hc) with ⟨e, he⟩
    exact ⟨e, applyProfile_error p inv e he⟩
  · intro pre post hsplit hpre
    refine applyProfile_error p inv _ ?_
    rw [hsplit]
    exact resolveAll_first_error inv.outputs pre post s _ hpre hres

def profX : Profile := ⟨[⟨"X", szFHD, ⟨0, 0⟩, mkRat 60 1, 1⟩]⟩

/-- Witness for C4: a profile referencing output `X` against the inventory
`{A, B, C}` (which has no `X`) fails with the missing-output error for `X`. -/
theorem c4_missing_output_aborts_witness :
    ((⟨"X", szFHD, ⟨0, 0⟩, mkRat 60 1, 1⟩ : Screen) ∈ profX.screens)
      ∧ applyProfile profX invABC = .error (.missingOutput "X") :=
  ⟨by decide,
   (c4_missing_output_aborts invABC profX ⟨"X", szFHD, ⟨0, 0⟩, mkRat 60 1, 1⟩
     (by decide) (by decide)).2 [] [] (by decide) (fun t ht => absurd ht (by simp))⟩

/-- C5: a profile screen whose desired size matches no mode of its resolved
live output makes apply fail, and when the screens before it all resolve, the
failure is the no-matching-mode error naming that output; the error result
carries no directives, so none are emitted or applied. -/
theorem c5_no_matching_mode_aborts (inv : KScreenDoctorResult) (p : Profile) (s : Screen)
    (o : Output) (hs : s ∈ p.screens) (hlook : lookupLast inv.outputs s.name = some o)
    (hnone : o.modes.filter (fun m => m.size = s.size) = []) :
    (∃ e, applyProfile p inv = .error e)
      ∧ (∀ pre post, p.screens = pre ++ s :: post →
          (∀ t ∈ pre, ∃ r, resolveScreen inv.outputs t = .ok r) →
          applyProfile p inv = .error (.noMatchingMode s.name)) := by
  have hres : resolveScreen inv.outputs s = .error (.noMatchingMode s.name) := by
    unfold resolveScreen
    simp only [hlook, hnone]
  constructor
  · rcases resolveAll_error_of inv.outputs p.screens s hs
        (fun t hc => by rw [hres] at hc; cases hc) with ⟨e, he⟩
    exact ⟨e, applyProfile_error p inv e he⟩
  · intro pre post hsplit hpre
    refine applyProfile_error p inv _ ?_
    rw [hsplit]
    exact resolveAll_first_error inv.outputs pre post s _ hpre hres

/-! Fixture for C5: output `A` offers only the 1920×1080 modes, while the
profile asks for a 2560×1440 screen on `A`. -/

def szQHD : Size := ⟨1440, 2560⟩

def profQHD : Profile := ⟨[⟨"A", szQHD, ⟨0, 0⟩, mkRat 60 1, 1⟩]⟩

/-- Witness for C5: requesting a 2560×1440 screen on output `A`, which only
offers 1920×1080 modes, fails with the no-matching-mode error for `A`. -/
theorem c5_no_matching_mode_aborts_witness :
    ((⟨"A", szQHD, ⟨0, 0⟩, mkRat 60 1, 1⟩ : Screen) ∈ profQHD.screens)
      ∧ lookupLast invC1.outputs "A" = some outA
      ∧ applyProfile profQHD invC1 = .error (.noMatchingMode "A") :=
  ⟨by decide, by decide,
   (c5_no_matching_mode_aborts invC1 profQHD ⟨"A", szQHD, ⟨0, 0⟩, mkRat 60 1, 1⟩ outA
     (by decide) (by decide) (by decide)).2 [] [] (by decide)
     (fun t ht => absurd ht (by simp))⟩

/-- C7: a successful apply puts all disable directives first, followed by the
per-screen enable/mode/position/scale blocks in profile order. -/
theorem c7_directive_ordering (p : Profile) (inv : KScreenDoctorResult)
    (args : List Directive) (h : applyProfile p inv = .ok args) :
    ∃ (dn : List String) (ts : List TargetOutputProperties),
      args = dn.map Directive.disable ++ ts.flatMap enableBlock
        ∧ ts.map (fun t => t.name) = p.screens.map (fun s => s.name) := by
  rcases (applyProfile_ok_iff p inv args).mp h with ⟨ts, hts, hargs⟩
  exact ⟨_, ts, hargs, resolveAll_names _ _ _ hts⟩

/-- Witness for C7: the directive list for the `{A, B, C}` fixture is the
two disables followed by the enable block of `A`. -/
theorem c7_directive_ordering_witness :
    ∃ (dn : List String) (ts : List TargetOutputProperties),
      [Directive.disable "B", Directive.disable "C", Directive.enable "A",
          Directive.mode "A" "1920x1080@60", Directive.position "A" 0 0,
          Directive.scale "A" 1]
        = dn.map Directive.disable ++ ts.flatMap enableBlock
        ∧ ts.map (fun t => t.name) = profOnlyA.screens.map (fun s => s.name) :=
  c7_directive_ordering profOnlyA invABC
    [.disable "B", .disable "C", .enable "A", .mode "A" "1920x1080@60",
     .position "A" 0 0, .scale "A" 1] (by decide)

/-- C6: an inventory with an enabled output whose current-mode id matches no
mode makes extract fail with the integrity error naming an enabled output of
unresolved (zero) refresh rate — the offending output itself when it is the
only such output — and every screen of a successful extraction has a nonzero
refresh rate (a failed extraction returns no profile at all, so the offending
output appears in none). -/
theorem c6_integrity_failure (inv : KScreenDoctorResult) :
    (∀ o, o ∈ inv.outputs → o.enabled →
        o.modes.find? (fun m => m.id = o.currentModeId) = none →
        ∃ x, x ∈ inv.outputs ∧ x.enabled ∧ rateOf x = 0
          ∧ extract inv = .error (.integrityError x.name))
      ∧ (∀ o, o ∈ inv.outputs → o.enabled → rateOf o = 0 →
          (∀ x, x ∈ inv.outputs → x.enabled → rateOf x = 0 → x = o) →
          extract inv = .error (.integrityError o.name))
      ∧ (∀ p, extract inv = .ok p → ∀ s, s ∈ p.screens → s.refreshRate ≠ 0) := by
  have herr : ∀ o, o ∈ inv.outputs → o.enabled → rateOf o = 0 →
      ∃ x, x ∈ inv.outputs ∧ x.enabled ∧ rateOf x = 0
        ∧ extract inv = .error (.integrityError x.name) := by
    intro o ho he hr
    have ho2 : o ∈ sortFunc cmpPriority inv.outputs := (sortFunc_mem _ _ _).mpr ho
    rcases extractLoop_error_of _ o ho2 he hr with ⟨x, hx, hxe, hxr, hloop⟩
    exact ⟨x, (sortFunc_mem _ _ _).mp hx, hxe, hxr, by
      unfold extract
      rw [hloop]
      rfl⟩
  refine ⟨?_, ?_, ?_⟩
  · intro o ho he hfind
    exact herr o ho he (by unfold rateOf; rw [hfind])
  · intro o ho he hr huniq
    rcases herr o ho he hr with ⟨x, hx, hxe, hxr, hex⟩
    rwa [huniq x hx hxe hxr] at hex
  · intro p hp s hs
    unfold extract at hp
    cases hl : extractLoop (sortFunc cmpPriority inv.outputs) with
    | error e => rw [hl] at hp; simp [Except.map] at hp
    | ok scr =>
      rw [hl] at hp
      simp only [Except.map, Except.ok.injEq] at hp
      rcases extractLoop_eq_ok _ _ hl with ⟨hscr, hall⟩
      rw [← hp] at hs
      rw [hscr] at hs
      rcases List.mem_map.mp hs with ⟨o, ho, hos⟩
      rcases List.mem_filter.mp ho with ⟨ho2, hoe⟩
      rw [← hos]
      exact hall o ho2 hoe

/-! Fixture for C6: output `E` is enabled but its current-mode id `"zz"`
matches none of its modes. -/

def outBadE : Output := ⟨"E", "zz", true, szFHD, ⟨0, 0⟩, 1, [mode600], 0⟩

def invC6 : KScreenDoctorResult := ⟨[outA, outBadE]⟩

/-- Witness for C6: the inventory containing the broken enabled output `E`
fails to extract with the integrity error naming `E`. -/
theorem c6_integrity_failure_witness :
    extract invC6 = .error (.integrityError "E") :=
  (c6_integrity_failure invC6).2.1 outBadE (by decide) (by decide) (by decide)
    (fun x hx hxe hxr => by
      rcases List.mem_cons.mp hx with h2 | h2
      · subst h2; exact absurd hxr (by decide)
      · rcases List.mem_cons.mp h2 with h3 | h3
        · exact h3
        · cases h3)

/-- C9: a disabled output never causes extract to fail — success is
equivalent to every *enabled* output resolving a nonzero refresh rate,
regardless of any disabled output's mode data — and every screen of a
successful extraction is the projection of an enabled output, so disabled
outputs are excluded from the profile. -/
theorem c9_disabled_outputs_ignored (inv : KScreenDoctorResult) :
    ((∃ p, extract inv = .ok p) ↔ (∀ o, o ∈ inv.outputs → o.enabled → rateOf o ≠ 0))
      ∧ (∀ p, extract inv = .ok p → ∀ s, s ∈ p.screens →
          ∃ o, o ∈ inv.outputs ∧ o.enabled ∧ s = toScreen o) := by
  constructor
  · constructor
    · rintro ⟨p, hp⟩ o ho he
      unfold extract at hp
      cases hl : extractLoop (sortFunc cmpPriority inv.outputs) with
      | error e => rw [hl] at hp; simp [Except.map] at hp
      | ok scr =>
        rcases extractLoop_eq_ok _ _ hl with ⟨-, hall⟩
        exact hall o ((sortFunc_mem _ _ _).mpr ho) he
    · intro hok
      refine ⟨⟨((sortFunc cmpPriority inv.outputs).filter (fun o => o.enabled)).map toScreen⟩, ?_⟩
      unfold extract
      rw [extractLoop_ok_of _ (fun o ho he => hok o ((sortFunc_mem _ _ _).mp ho) he)]
      rfl
  · intro p hp s hs
    unfold extract at hp
    cases hl : extractLoop (sortFunc cmpPriority inv.outputs) with
    | error e => rw [hl] at hp; simp [Except.map] at hp
    | ok scr =>
      rw [hl] at hp
      simp only [Except.map, Except.ok.injEq] at hp
      rcases extractLoop_eq_ok _ _ hl with ⟨hscr, -⟩
      rw [← hp] at hs
      rw [hscr] at hs
      rcases List.mem_map.mp hs with ⟨o, ho, hos⟩
      rcases List.mem_filter.mp ho with ⟨ho2, hoe⟩
      exact ⟨o, (sortFunc_mem _ _ _).mp ho2, hoe, hos.symm⟩

/-! Fixture for C9: output `F` is disabled and broken twice over — its
current-mode id matches nothing and its only mode has refresh rate zero. -/

def modeZero : Mode := ⟨"m0", "1920x1080@0", 0, szFHD⟩

def outBadF : Output := ⟨"F", "zz", false, szFHD, ⟨0, 0⟩, 1, [modeZero], 0⟩

def invC9 : KScreenDoctorResult := ⟨[outA, outBadF]⟩

/-- Witness for C9: extraction succeeds despite the broken disabled output
`F`, and every extracted screen stems from an enabled output. -/
theorem c9_disabled_outputs_ignored_witness :
    (∃ p, extract invC9 = .ok p)
      ∧ (∀ s, s ∈ ({ screens := [screenA60] } : Profile).screens →
          ∃ o, o ∈ invC9.outputs ∧ o.enabled ∧ s = toScreen o) :=
  ⟨(c9_disabled_outputs_ignored invC9).1.mpr (fun o ho he => by
      rcases List.mem_cons.mp ho with h2 | h2
      · subst h2; decide
      · rcases List.mem_cons.mp h2 with h3 | h3
        · subst h3; cases he
        · cases h3),
   (c9_disabled_outputs_ignored invC9).2 ⟨[screenA60]⟩ (by decide)⟩

/-- C10: applying a profile with no screens to an inventory (output names
are unique per inventory snapshot, per the data model) succeeds and emits
exactly one disable directive per live output and nothing else. -/
theorem c10_empty_profile_disables_all (inv : KScreenDoctorResult)
    (hnd : (inv.outputs.map (fun o => o.name)).Nodup) :
    applyProfile ⟨[]⟩ inv
      = .ok ((inv.outputs.map (fun o => o.name)).map Directive.disable) := by
  have h1 : resolveAll inv.outputs ([] : List Screen) = .ok [] := rfl
  unfold applyProfile
  simp only [h1]
  have h2 : mapKeys inv.outputs = inv.outputs.map (fun o => o.name) :=
    keysAux_of_nodup [] _ hnd (by simp)
  simp [h2]

/-- Witness for C10: the empty profile against the two-output inventory
`invC9` yields exactly the two disable directives. -/
theorem c10_empty_profile_disables_all_witness :
    applyProfile ⟨[]⟩ invC9 = .ok [.disable "A", .disable "F"] :=
  c10_empty_profile_disables_all invC9 (by decide)
